import Mathlib

/-
Shallow embedding of the parts of the `anaconda_cloud_auth` and
`anaconda_navigator` Python packages that the verified claims are about:

* `anaconda_cloud_auth/actions.py`: access-token hash validation, the PKCE
  authorization request, login/logout against the keyring;
* `anaconda_cloud_auth/client.py`: bearer-token injection, the session
  `request` wrapper, API-version validation via the `semver` library;
* `anaconda_navigator/utils/version_utils.py`: the version comparator.

Pure helpers of the Python standard library and of third-party libraries that
the code calls (`str.split`, `str.join`, `base64.urlsafe_b64encode`,
`urllib.parse.urlencode`, `semver.Version.parse`) are translated concretely;
effectful or cryptographic dependencies (HTTP, `hashlib` digests, the
`packaging` version parser, the keyring) are abstracted as explicit function
parameters.
-/

namespace SWMSU

/-- Python `str.split(sep)` with a one-character separator, on explicit
character lists.  As in Python, `''.split('.') == ['']`, so the empty list
yields `[[]]`, and the result is always nonempty. -/
def splitOnChar (sep : Char) : List Char → List (List Char)
  | [] => [[]]
  | c :: cs =>
    let r := splitOnChar sep cs
    if c = sep then [] :: r else (c :: r.headI) :: r.tail

/-- Python `sep.join` restricted to a one-character separator. -/
def joinChar (sep : Char) : List (List Char) → List Char
  | [] => []
  | [s] => s
  | s :: ss => s ++ sep :: joinChar sep ss

/-- Value of a run of decimal digit characters, as Python `int` computes it
(leading zeros are irrelevant). -/
def digitsToNat (cs : List Char) : Nat :=
  cs.foldl (fun a c => a * 10 + (c.toNat - 48)) 0

namespace version_utils

/-- One piece of `re.split(r'([0-9]+)', raw)` after Python converts the
captured digit runs with `int`: even positions hold the non-digit text (as its
character list), odd positions hold the numbers. -/
abbrev Part := List Char ⊕ Nat

/-- Accumulating pass splitting a string into maximal runs of digits and
non-digits; `curr` is the current run (reversed), `curIsDig` whether it is a
digit run.  The result alternates non-digit, digit, non-digit, ... text,
starting and ending with a (possibly empty) non-digit run, exactly as
`re.split(r'([0-9]+)', s)` does. -/
def runsAux : List Char → List Char → Bool → List (List Char)
  | [], curr, curIsDig => if curIsDig then [curr.reverse, []] else [curr.reverse]
  | c :: cs, curr, curIsDig =>
    if c.isDigit = curIsDig then runsAux cs (c :: curr) curIsDig
    else curr.reverse :: runsAux cs [c] c.isDigit

/-- `re.split(r'([0-9]+)', ·)` on the characters of a string. -/
def numberSplit (cs : List Char) : List (List Char) := runsAux cs [] false

/-- Tag the alternating runs: even indexes stay strings, odd indexes (the
captured digit runs) become numbers, as in `Version.parts`. -/
def partsFromRuns : List (List Char) → Bool → List Part
  | [], _ => []
  | r :: rs, isDig =>
    (if isDig then Sum.inr (digitsToNat r) else Sum.inl r) :: partsFromRuns rs (!isDig)

/-- `Version.parts`: format-independent representation of a version. -/
def partsOf (raw : String) : List Part := partsFromRuns (numberSplit raw.data) false

/-- Python `str.strip()` (modelled on the ASCII whitespace characters). -/
def pyStrip (s : String) : String :=
  String.mk (((s.data.dropWhile Char.isWhitespace).reverse.dropWhile Char.isWhitespace).reverse)

/-- `Version.__init__`: `self.raw = str(value or '').strip()`. -/
structure PyVersion where
  raw : String
deriving DecidableEq

/-- `Version(value)` for a string argument. -/
def mkVersion (value : String) : PyVersion := ⟨pyStrip value⟩

/-- Python string `<`: lexicographic comparison by code point. -/
def charListLt : List Char → List Char → Bool
  | _, [] => false
  | [], _ :: _ => true
  | a :: as, b :: bs => decide (a < b) || (decide (a = b) && charListLt as bs)

/-- Python `<` on one tuple component.  Components at equal index always have
the same constructor (strings at even indexes, numbers at odd indexes), so the
two mixed cases are never exercised between two `parts` tuples (Python would
raise `TypeError` there); they are fixed arbitrarily to keep the order total. -/
def partLt : Part → Part → Bool
  | .inl s, .inl t => charListLt s t
  | .inr m, .inr n => decide (m < n)
  | .inl _, .inr _ => true
  | .inr _, .inl _ => false

/-- Python tuple `<` on `parts`: lexicographic, a strict prefix is smaller. -/
def partsLt : List Part → List Part → Bool
  | _, [] => false
  | [], _ :: _ => true
  | x :: xs, y :: ys => partLt x y || (decide (x = y) && partsLt xs ys)

variable {PV : Type}

/-- `Version.version`: `packaging.version.Version(self.raw)`, or `None` on
`InvalidVersion`.  The third-party `packaging` parser is abstracted as the
`parse` parameter, its totally ordered comparison key as the `LinearOrder`. -/
def vversion (parse : String → Option PV) (v : PyVersion) : Option PV := parse v.raw

/-- `Version.__eq__`: `(self.raw == other.raw) or (self.version == other.version)`. -/
def veq [DecidableEq PV] (parse : String → Option PV) (a b : PyVersion) : Bool :=
  decide (a.raw = b.raw) || decide (vversion parse a = vversion parse b)

/-- `Version.__lt__`: the parsed versions when both parse, the `parts` tuples
otherwise. -/
def vlt [LinearOrder PV] (parse : String → Option PV) (a b : PyVersion) : Bool :=
  match vversion parse a, vversion parse b with
  | some x, some y => decide (x < y)
  | _, _ => partsLt (partsOf a.raw) (partsOf b.raw)

/-- `version_utils.compare` on two version strings. -/
def compare [LinearOrder PV] (parse : String → Option PV) (left right : String) : Int :=
  let l := mkVersion left
  let r := mkVersion right
  if veq parse l r then 0 else if vlt parse l r then -1 else 1

/-- A small concrete stand-in for the abstract `packaging` parser, used to
instantiate the abstract theorems on concrete inputs: it accepts exactly the
nonempty all-digit strings. -/
def digitParse (s : String) : Option Nat :=
  if s.data ≠ [] ∧ s.data.all Char.isDigit = true then some (digitsToNat s.data) else none

end version_utils

namespace client

/-- `semver` numeric identifier: `0|[1-9]\d*`, i.e. a nonempty digit run that
is either the single `0` or carries no leading zero. -/
def numIdentOK (cs : List Char) : Bool :=
  !cs.isEmpty && cs.all Char.isDigit && (decide (cs = ['0']) || !(decide (cs.headI = '0')))

/-- Character class `[0-9a-zA-Z-]` of the `semver` grammar. -/
def alnumHyphen (c : Char) : Bool := c.isAlpha || c.isDigit || c == '-'

/-- `semver` prerelease identifier: `0|[1-9]\d*|\d*[a-zA-Z-][0-9a-zA-Z-]*`,
i.e. a nonempty `[0-9a-zA-Z-]` word whose all-digit instances carry no leading
zero. -/
def preIdentOK (cs : List Char) : Bool :=
  !cs.isEmpty && cs.all alnumHyphen && (!cs.all Char.isDigit || numIdentOK cs)

/-- `semver` build identifier: `[0-9a-zA-Z-]+`. -/
def buildIdentOK (cs : List Char) : Bool :=
  !cs.isEmpty && cs.all alnumHyphen

/-- Parsed `semver.Version`. -/
structure Semver where
  major : Nat
  minor : Nat
  patch : Nat
  prerelease : List (List Char)
  build : List (List Char)
deriving DecidableEq

/-- The mandatory `major.minor.patch` core of a `semver` version string. -/
def parseCore (core : List Char) : Option (Nat × Nat × Nat) :=
  match splitOnChar '.' core with
  | [ma, mi, pa] =>
    if numIdentOK ma && numIdentOK mi && numIdentOK pa then
      some (digitsToNat ma, digitsToNat mi, digitsToNat pa)
    else none
  | _ => none

/-- Optional `-prerelease` part: absent, or a leading `-` followed by
dot-separated prerelease identifiers. -/
def parsePre : List Char → Option (List (List Char))
  | [] => some []
  | _ :: ps =>
    if (splitOnChar '.' ps).all preIdentOK then some (splitOnChar '.' ps) else none

/-- Optional `+build` part: absent, or a leading `+` followed by dot-separated
build identifiers. -/
def parseBuild : List Char → Option (List (List Char))
  | [] => some []
  | _ :: bs =>
    if (splitOnChar '.' bs).all buildIdentOK then some (splitOnChar '.' bs) else none

/-- `semver.Version.parse`, translated from the library's anchored regular
expression: `major.minor.patch` digits with an optional `-prerelease` and an
optional `+build` tail.  In any match the build part starts at the first `+` of
the string and the prerelease part at the first `-` before it (the release
digits can contain neither character), so the string is decomposed at those
characters. -/
def semverParseL (cs : List Char) : Option Semver :=
  match parseCore ((cs.takeWhile (· ≠ '+')).takeWhile (· ≠ '-')),
      parsePre ((cs.takeWhile (· ≠ '+')).dropWhile (· ≠ '-')),
      parseBuild (cs.dropWhile (· ≠ '+')) with
  | some (ma, mi, pa), some pre, some bld => some ⟨ma, mi, pa, pre, bld⟩
  | _, _, _ => none

/-- `_parse_semver_string`: strip leading zeros (`str.lstrip("0")`) from every
dot-separated component, rejoin with dots, and parse with `semver`; `None` on a
parse failure. -/
def parse_semver_string (version : String) : Option Semver :=
  semverParseL (joinChar '.' ((splitOnChar '.' version.data).map (List.dropWhile (· = '0'))))

/-- Three-way comparison of numbers, used by the `semver` precedence rules. -/
def natCompare (m n : Nat) : Ordering := if m < n then .lt else if n < m then .gt else .eq

/-- Lexicographic comparison of character lists by code point. -/
def charListCompare : List Char → List Char → Ordering
  | [], [] => .eq
  | [], _ :: _ => .lt
  | _ :: _, [] => .gt
  | a :: as, b :: bs =>
    if a.toNat < b.toNat then .lt
    else if b.toNat < a.toNat then .gt
    else charListCompare as bs

/-- `semver` prerelease identifier precedence: numeric identifiers compare as
numbers and precede alphanumeric ones; alphanumeric identifiers compare in
ASCII order. -/
def preIdCompare (a b : List Char) : Ordering :=
  if a.all Char.isDigit then
    if b.all Char.isDigit then natCompare (digitsToNat a) (digitsToNat b) else .lt
  else if b.all Char.isDigit then .gt
  else charListCompare a b

/-- `semver` prerelease list precedence: identifier by identifier, a strict
prefix preceding its extensions. -/
def preListCompare : List (List Char) → List (List Char) → Ordering
  | [], [] => .eq
  | [], _ :: _ => .lt
  | _ :: _, [] => .gt
  | a :: as, b :: bs =>
    match preIdCompare a b with
    | .eq => preListCompare as bs
    | o => o

/-- `semver` precedence: release triple first, then the prerelease rules (a
version with a prerelease precedes the same release without one); build
metadata is ignored. -/
def semverCompare (x y : Semver) : Ordering :=
  match natCompare x.major y.major with
  | .eq =>
    match natCompare x.minor y.minor with
    | .eq =>
      match natCompare x.patch y.patch with
      | .eq =>
        match x.prerelease, y.prerelease with
        | [], [] => .eq
        | [], _ :: _ => .gt
        | _ :: _, [] => .lt
        | ps, qs => preListCompare ps qs
      | o => o
    | o => o
  | o => o

/-- `semver` strict precedence `<`. -/
def semverLt (x y : Semver) : Bool := semverCompare x y == Ordering.lt

/-- `BaseClient._validate_api_version`, as the predicate "a deprecation warning
is issued": nothing happens when either version string is absent or fails to
parse, otherwise a warning is issued exactly when the client version precedes
the minimum version. -/
def validate_api_version (apiVersion : Option String) (minApiVersionString : Option String) : Bool :=
  match minApiVersionString, apiVersion with
  | none, _ => false
  | _, none => false
  | some m, some a =>
    match parse_semver_string a, parse_semver_string m with
    | some av, some mv => semverLt av mv
    | _, _ => false

/-- Some dot-separated component of the string is a nonempty run of `0`
characters (for example the `0` components of `1.0.0`). -/
def hasAllZeroComponent (s : String) : Prop :=
  ∃ c ∈ splitOnChar '.' s.data, c ≠ [] ∧ c.all (· == '0') = true

/-- Request headers, as the finite map read and written through `r.headers`. -/
def Headers := String → Option String

/-- Header assignment `r.headers[k] = v`. -/
def setHeader (h : Headers) (k v : String) : Headers :=
  fun k2 => if k2 = k then some v else h k2

/-- Python truthiness of `self.api_key`: `None` and `""` are falsy. -/
def pyTruthy : Option String → Bool
  | none => false
  | some s => !(s == "")

/-- `BearerAuth.__call__` on a prepared request, represented by its headers.
`tokenRes` is the outcome of `self._token_info.get_access_token()`, with
`Except.error` modelling `TokenNotFoundError` (which the code swallows). -/
def bearerCall (apiKey : Option String) (tokenRes : Except Unit String) (r : Headers) : Headers :=
  if pyTruthy apiKey then setHeader r "Authorization" ("Bearer " ++ apiKey.getD "")
  else
    match tokenRes with
    | .ok tok => setHeader r "Authorization" ("Bearer " ++ tok)
    | .error _ => r

/-- The data of an HTTP response that `BaseClient.request` inspects: the status
code, the reason phrase, the `Authorization` header of the request that was
sent, and the result of `response.json().get("error", {}).get("code", "")`
(`none` when that lookup raises, e.g. on a non-JSON body). -/
structure RespModel where
  status : Nat
  reason : String
  reqAuthHeader : Option String
  jsonErrorCode : Option String
deriving DecidableEq

/-- Outcome of `BaseClient.request`: a `LoginRequiredError`, an exception
escaping from the JSON error-code lookup, or the response returned to the
caller. -/
inductive ReqOutcome
  | loginRequired (msg : String)
  | jsonFailure
  | response (r : RespModel)
deriving DecidableEq

/-- The error-handling tail of `BaseClient.request` on the received response. -/
def outcomeOf (r : RespModel) : ReqOutcome :=
  if r.status = 401 ∨ r.status = 403 then
    if r.reqAuthHeader = none then
      .loginRequired (toString r.status ++ " " ++ r.reason ++
        ":\nYou must login before using this API endpoint using\n  anaconda login\nor provide an api_key to your client.")
    else
      match r.jsonErrorCode with
      | none => .jsonFailure
      | some c =>
        if c = "auth_required" then
          .loginRequired (toString r.status ++ " " ++ r.reason ++
            ":\nThe provided API key or login token is invalid.\nYou may login again using\n  anaconda login\nor update the api_key provided to your client.")
        else .response r
  else .response r

/-- `BaseClient.request`: the url is resolved against the base URI (`urljoin`
abstracted as `join`) before the request is sent (`send`); the result pairs the
resolved url with the outcome on the received response. -/
def base_client_request (join : String → String → String) (send : String → RespModel)
    (baseUri url : String) : String × ReqOutcome :=
  let joined := join baseUri url
  (joined, outcomeOf (send joined))

end client

namespace actions

/-- The one error `_validate_access_token` can raise (`jwt.InvalidSignatureError`). -/
inductive JwtError
  | invalidSignature
deriving DecidableEq

/-- UTF-8 encoding of a string, as a list of byte values. -/
def utf8Bytes (s : String) : List Nat := s.toUTF8.toList.map (fun b => b.toNat)

/-- The URL-safe base64 alphabet `A-Z a-z 0-9 - _`. -/
def b64Char (n : Nat) : Char :=
  if n < 26 then Char.ofNat (65 + n)
  else if n < 52 then Char.ofNat (97 + (n - 26))
  else if n < 62 then Char.ofNat (48 + (n - 52))
  else if n = 62 then '-' else '_'

/-- `base64.urlsafe_b64encode` on a byte list, including the `=` padding. -/
def b64urlEncode : List Nat → List Char
  | [] => []
  | [a] => [b64Char (a / 4), b64Char (a % 4 * 16), '=', '=']
  | [a, b] => [b64Char (a / 4), b64Char (a % 4 * 16 + b / 16), b64Char (b % 16 * 4), '=']
  | a :: b :: c :: rest =>
    b64Char (a / 4) :: b64Char (a % 4 * 16 + b / 16) :: b64Char (b % 16 * 4 + c / 64) ::
      b64Char (c % 64) :: b64urlEncode rest

/-- Python `str.rstrip("=")`. -/
def rstripEq (cs : List Char) : List Char := (cs.reverse.dropWhile (· == '=')).reverse

/-- The hash `_validate_access_token` computes: the digest of the UTF-8 encoded
access token under the hash algorithm associated with the JWT signing algorithm
(`hashName` models `jwt.get_algorithm_by_name(alg).hash_alg.name` and `digestFn`
the `hashlib` digest), truncated to its left half, base64url-encoded, with the
`=` padding stripped. -/
def computedAccessTokenHash (hashName : String → String)
    (digestFn : String → List Nat → List Nat) (accessToken algorithmUsed : String) : String :=
  let digest := digestFn (hashName algorithmUsed) (utf8Bytes accessToken)
  let truncated := digest.take (digest.length / 2)
  String.mk (rstripEq (b64urlEncode truncated))

/-- `_validate_access_token`: raise `jwt.InvalidSignatureError` exactly when the
computed hash differs from the expected hash. -/
def validate_access_token (hashName : String → String)
    (digestFn : String → List Nat → List Nat)
    (accessToken algorithmUsed expectedHash : String) : Except JwtError Unit :=
  if computedAccessTokenHash hashName digestFn accessToken algorithmUsed ≠ expectedHash then
    .error .invalidSignature
  else .ok ()

/-- The decoded claims of the id token that `_validate_token_info` consults. -/
structure IdInfo where
  atHash : String
deriving DecidableEq

/-- The errors `_validate_token_info` can raise. -/
inductive TokenError
  | invalidToken (msg : String)
  | tokenNotFound (msg : String)
deriving DecidableEq

/-- `_validate_token_info` after the JWKS fetch: `decodeResult` is the outcome
of `jwt.decode` on the id token (`Except.error e` models a `PyJWTError` with
message `e`) and `algorithmUsed` the `alg` from the unverified header. -/
def validate_token_info (hashName : String → String)
    (digestFn : String → List Nat → List Nat) (idToken : Option String)
    (decodeResult : Except String IdInfo) (algorithmUsed : String)
    (accessToken : Option String) : Except TokenError Unit :=
  match idToken with
  | none => .ok ()
  | some _ =>
    match decodeResult with
    | .error e => .error (.invalidToken ("Error decoding token: " ++ e))
    | .ok idInfo =>
      match accessToken with
      | none => .error (.tokenNotFound "No access token found to validate")
      | some tok =>
        match validate_access_token hashName digestFn tok algorithmUsed idInfo.atHash with
        | .error _ => .error (.invalidToken "Access token has an invalid hash.")
        | .ok _ => .ok ()

/-- A byte `urllib.parse.quote_plus` leaves unescaped: the ASCII letters,
digits, and `_ . - ~`. -/
def safeByte (b : Nat) : Bool :=
  (65 ≤ b && b ≤ 90) || (97 ≤ b && b ≤ 122) || (48 ≤ b && b ≤ 57) ||
    b == 95 || b == 46 || b == 45 || b == 126

/-- Upper-case hexadecimal digit, as `urllib` percent-escapes produce. -/
def hexChar (n : Nat) : Char :=
  if n < 10 then Char.ofNat (48 + n) else Char.ofNat (65 + (n - 10))

/-- `urllib.parse.quote_plus` with `safe=''`: safe bytes stay, a space becomes
`+`, every other UTF-8 byte becomes an upper-case percent escape. -/
def quotePlus (s : String) : String :=
  String.mk (List.flatten ((utf8Bytes s).map (fun b =>
    if safeByte b then [Char.ofNat b]
    else if b == 32 then ['+']
    else ['%', hexChar (b / 16), hexChar (b % 16)])))

/-- `urllib.parse.urlencode` over the parameters in insertion order. -/
def urlencode (params : List (String × String)) : String :=
  String.intercalate "&" (params.map (fun p => quotePlus p.1 ++ "=" ++ quotePlus p.2))

/-- The fields of `AuthConfig` that the embedded functions consult. -/
structure AuthConfig where
  domain : String
  clientId : String
  redirectUri : String
  authorizationEndpoint : String
  sslVerify : Bool

/-- `make_auth_code_request_url`. -/
def make_auth_code_request_url (codeChallenge state : String) (cfg : AuthConfig) : String :=
  cfg.authorizationEndpoint ++ "?" ++ urlencode
    [("client_id", cfg.clientId), ("response_type", "code"),
     ("scope", "openid email profile offline_access"), ("state", state),
     ("redirect_uri", cfg.redirectUri), ("code_challenge", codeChallenge),
     ("code_challenge_method", "S256")]

/-- Environment of effects used by `_do_auth_flow`: the fresh `uuid4` state,
`pkce.generate_pkce_pair` (length argument to (verifier, challenge) pair),
`capture_auth_code` (redirect uri and state to captured code) and
`request_access_token` (auth code, code verifier and config to access token). -/
structure FlowEnv where
  uuid4 : String
  pkcePair : Nat → String × String
  captureAuthCode : String → String → String
  requestAccessToken : String → String → AuthConfig → String

/-- `_do_auth_flow`: the result pairs the url handed to `webbrowser.open` with
the access token returned from the auth-code exchange. -/
def do_auth_flow (env : FlowEnv) (cfg : AuthConfig) : String × String :=
  let state := env.uuid4
  let pair := env.pkcePair 128
  let url := make_auth_code_request_url pair.2 state cfg
  let authCode := env.captureAuthCode cfg.redirectUri state
  (url, env.requestAccessToken authCode pair.1 cfg)

/-- Modelled from the spec: `token.py` is not among the source files; the
spec's glossary describes the keyring as "OS-native secure credential storage
used to persist tokens between sessions".  A `TokenInfo` record holds the API
key and its domain; `expired` is the expiry of the stored key as
`TokenInfo.expired` reports it. -/
structure TokenInfoM where
  apiKey : String
  domain : String
  expired : Bool
deriving DecidableEq

/-- Modelled from the spec: the keyring, keyed by domain. -/
def Keyring := String → Option TokenInfoM

/-- Modelled from the spec: `TokenInfo.load(domain)` returns the stored record
for the domain and raises `TokenNotFoundError` (the `Except.error`) when none
is stored. -/
def token_load (kr : Keyring) (domain : String) : Except Unit TokenInfoM :=
  match kr domain with
  | some t => .ok { t with domain := domain }
  | none => .error ()

/-- Modelled from the spec: `TokenInfo.save` persists the record under its
domain. -/
def token_save (kr : Keyring) (t : TokenInfoM) : Keyring :=
  fun d => if d = t.domain then some t else kr d

/-- Modelled from the spec: `TokenInfo.delete` removes the record stored for
the domain. -/
def token_delete (kr : Keyring) (domain : String) : Keyring :=
  fun d => if d = domain then none else kr d

/-- `_api_key_is_valid`: an unexpired token is stored for the configured
domain; a missing token counts as not valid. -/
def api_key_is_valid (cfg : AuthConfig) (kr : Keyring) : Bool :=
  match token_load kr cfg.domain with
  | .ok t => !t.expired
  | .error _ => false

/-- `_do_login`: `accessToken` is the token produced by the basic or browser
flow, `getApiKey` models the `get_api_key` exchange endpoint, and `expiredOf`
the expiry of the freshly issued key as later read back from the keyring. -/
def do_login (getApiKey : String → String) (expiredOf : String → Bool)
    (cfg : AuthConfig) (accessToken : String) (kr : Keyring) : Keyring :=
  token_save kr ⟨getApiKey accessToken, cfg.domain, expiredOf (getApiKey accessToken)⟩

/-- `login`: the second component records whether the login flow ran. -/
def login (getApiKey : String → String) (expiredOf : String → Bool)
    (cfg : AuthConfig) (force : Bool) (accessToken : String) (kr : Keyring) : Keyring × Bool :=
  if force || !api_key_is_valid cfg kr then
    (do_login getApiKey expiredOf cfg accessToken kr, true)
  else (kr, false)

/-- `logout`: load and delete the token for the configured domain, swallowing
`TokenNotFoundError`; the `Except` result records that no exception escapes
the `try` block. -/
def logout (cfg : AuthConfig) (kr : Keyring) : Except Unit Keyring :=
  match token_load kr cfg.domain with
  | .ok t => .ok (token_delete kr t.domain)
  | .error _ => .ok kr

/-- `is_logged_in` (`defaultDomain` is `AuthConfig().domain`). -/
def is_logged_in (defaultDomain : String) (kr : Keyring) : Bool :=
  match token_load kr defaultDomain with
  | .ok _ => true
  | .error _ => false

end actions

end SWMSU

namespace SWMSU

namespace actions

/-- C1: `_validate_access_token` computes the digest of the UTF-8 encoded
access token under the hash algorithm associated with the JWT signing
algorithm, keeps only the left half of the digest, base64url-encodes it and
strips the `=` padding, and raises `jwt.InvalidSignatureError` if and only if
this computed string differs from the expected hash; `_validate_token_info`
converts exactly that failure into `InvalidTokenError`. -/
theorem c1_access_token_hash_validation (hashName : String → String)
    (digestFn : String → List Nat → List Nat)
    (accessToken algorithmUsed expectedHash idToken : String) (idInfo : IdInfo) :
    (validate_access_token hashName digestFn accessToken algorithmUsed expectedHash =
        .error .invalidSignature ↔
      String.mk (rstripEq (b64urlEncode
          ((digestFn (hashName algorithmUsed) (utf8Bytes accessToken)).take
            ((digestFn (hashName algorithmUsed) (utf8Bytes accessToken)).length / 2)))) ≠
        expectedHash) ∧
    (validate_token_info hashName digestFn (some idToken) (.ok idInfo) algorithmUsed
        (some accessToken) = .error (.invalidToken "Access token has an invalid hash.") ↔
      validate_access_token hashName digestFn accessToken algorithmUsed idInfo.atHash =
        .error .invalidSignature) := by
  constructor
  · by_cases h : computedAccessTokenHash hashName digestFn accessToken algorithmUsed =
        expectedHash
    · simp [validate_access_token, h, computedAccessTokenHash] at h ⊢
    · simp [validate_access_token, h, computedAccessTokenHash] at h ⊢
  · cases hv : validate_access_token hashName digestFn accessToken algorithmUsed
        idInfo.atHash with
    | error e => cases e; simp [validate_token_info, hv]
    | ok u => simp [validate_token_info, hv]

/-- C2: `make_auth_code_request_url` is the configured authorization endpoint
followed by `?` and the URL-encoded parameters in the stated order, and
`_do_auth_flow` generates a PKCE pair with verifier length 128, opens exactly
that request URL for the generated challenge and state, and exchanges the
captured authorization code together with the generated verifier for the
access token. -/
theorem c2_pkce_authorization_request (cfg : AuthConfig) (codeChallenge state : String)
    (env : FlowEnv) (hlen : ∀ n, ((env.pkcePair n).1).length = n) :
    make_auth_code_request_url codeChallenge state cfg =
      cfg.authorizationEndpoint ++ "?" ++ urlencode
        [("client_id", cfg.clientId), ("response_type", "code"),
         ("scope", "openid email profile offline_access"), ("state", state),
         ("redirect_uri", cfg.redirectUri), ("code_challenge", codeChallenge),
         ("code_challenge_method", "S256")] ∧
    do_auth_flow env cfg =
      (make_auth_code_request_url (env.pkcePair 128).2 env.uuid4 cfg,
       env.requestAccessToken (env.captureAuthCode cfg.redirectUri env.uuid4)
         (env.pkcePair 128).1 cfg) ∧
    ((env.pkcePair 128).1).length = 128 :=
  ⟨rfl, rfl, hlen 128⟩

theorem c2_witness :
    ((FlowEnv.mk "st" (fun n => (String.mk (List.replicate n 'a'), "ch"))
        (fun _ _ => "code") (fun _ _ _ => "tok")).pkcePair 128).1.length = 128 :=
  (c2_pkce_authorization_request ⟨"d", "c", "r", "a", true⟩ "ch" "st"
    (FlowEnv.mk "st" (fun n => (String.mk (List.replicate n 'a'), "ch"))
      (fun _ _ => "code") (fun _ _ _ => "tok"))
    (fun n => by simp)).2.2

/-- C4: `login` performs the login flow if and only if `force` is true or no
unexpired API key is stored for the configured domain (a missing token counts
as not valid); otherwise it returns without modifying the stored tokens. -/
theorem c4_conditional_login (getApiKey : String → String) (expiredOf : String → Bool)
    (cfg : AuthConfig) (force : Bool) (accessToken : String) (kr : Keyring) :
    (login getApiKey expiredOf cfg force accessToken kr).2 =
      (force || !api_key_is_valid cfg kr) ∧
    api_key_is_valid cfg kr =
      (match kr cfg.domain with
       | some t => !t.expired
       | none => false) ∧
    ((login getApiKey expiredOf cfg force accessToken kr).2 = false →
      (login getApiKey expiredOf cfg force accessToken kr).1 = kr) := by
  refine ⟨?_, ?_, ?_⟩
  · cases h : (force || !api_key_is_valid cfg kr) <;> simp [login, h]
  · cases h : kr cfg.domain <;> simp [api_key_is_valid, token_load, h]
  · intro h2
    cases h : (force || !api_key_is_valid cfg kr) with
    | false => simp [login, h]
    | true => simp [login, h] at h2

theorem c4_witness :
    (login (fun _ => "k") (fun _ => false) ⟨"dom", "c", "r", "a", true⟩ false "tok"
        (fun d => if d = "dom" then some ⟨"k", "dom", false⟩ else none)).1 =
      (fun d => if d = "dom" then some ⟨"k", "dom", false⟩ else none) :=
  (c4_conditional_login (fun _ => "k") (fun _ => false) ⟨"dom", "c", "r", "a", true⟩
    false "tok" (fun d => if d = "dom" then some ⟨"k", "dom", false⟩ else none)).2.2 rfl

/-- C5: a successful login exchanges the obtained access token for an API key
and saves a `TokenInfo` with that key and the configured domain to the keyring,
after which `is_logged_in` (for that domain) reports true; `logout` deletes the
stored token info for the configured domain. -/
theorem c5_keyring_persistence (getApiKey : String → String) (expiredOf : String → Bool)
    (cfg : AuthConfig) (accessToken : String) (kr : Keyring) (defaultDomain : String)
    (hdom : defaultDomain = cfg.domain) :
    do_login getApiKey expiredOf cfg accessToken kr cfg.domain =
      some ⟨getApiKey accessToken, cfg.domain, expiredOf (getApiKey accessToken)⟩ ∧
    is_logged_in defaultDomain (do_login getApiKey expiredOf cfg accessToken kr) = true ∧
    logout cfg (do_login getApiKey expiredOf cfg accessToken kr) =
      .ok (token_delete (do_login getApiKey expiredOf cfg accessToken kr) cfg.domain) ∧
    token_delete (do_login getApiKey expiredOf cfg accessToken kr) cfg.domain cfg.domain =
      none := by
  have h1 : do_login getApiKey expiredOf cfg accessToken kr cfg.domain =
      some ⟨getApiKey accessToken, cfg.domain, expiredOf (getApiKey accessToken)⟩ := by
    simp [do_login, token_save]
  refine ⟨h1, ?_, ?_, ?_⟩
  · subst hdom; simp [is_logged_in, token_load, h1]
  · simp [logout, token_load, h1]
  · simp [token_delete]

theorem c5_witness :
    is_logged_in "dom"
      (do_login (fun _ => "k") (fun _ => false) ⟨"dom", "c", "r", "a", true⟩ "tok"
        (fun _ => none)) = true :=
  (c5_keyring_persistence (fun _ => "k") (fun _ => false) ⟨"dom", "c", "r", "a", true⟩
    "tok" (fun _ => none) "dom" rfl).2.1

/-- C10: `logout` never raises (a missing token is swallowed), afterwards no
token is stored for the configured domain, and a second `logout` has no further
effect. -/
theorem c10_logout_total_idempotent (cfg : AuthConfig) (kr : Keyring) :
    ∃ kr2, logout cfg kr = .ok kr2 ∧ kr2 cfg.domain = none ∧
      logout cfg kr2 = .ok kr2 := by
  cases h : kr cfg.domain with
  | none =>
    refine ⟨kr, ?_, h, ?_⟩
    · simp [logout, token_load, h]
    · simp [logout, token_load, h]
  | some t =>
    have h2 : token_delete kr cfg.domain cfg.domain = none := by simp [token_delete]
    refine ⟨token_delete kr cfg.domain, ?_, h2, ?_⟩
    · simp [logout, token_load, h]
    · simp [logout, token_load, h2]

end actions

namespace client

/-- C3 counterexample: with no API key and a token store that raises
`TokenNotFoundError`, `BearerAuth.__call__` returns the request without any
`Authorization` header, contrary to the claim that the header is always set. -/
theorem c3_counterexample :
    bearerCall none (.error ()) (fun _ => none) "Authorization" = none ∧
    ¬ ∃ t : String, bearerCall none (.error ()) (fun _ => none) "Authorization" =
        some ("Bearer " ++ t) := by
  refine ⟨rfl, ?_⟩
  rintro ⟨t, ht⟩
  have h0 : bearerCall none (.error ()) (fun _ => none) "Authorization" = none := rfl
  rw [h0] at ht
  exact Option.noConfusion ht

/-- C3 amended: if the held `api_key` is truthy the `Authorization` header is
set to `Bearer` plus that key; otherwise it is set to `Bearer` plus the stored
access token when one can be obtained, and when the lookup raises
`TokenNotFoundError` the request is returned with its headers unchanged; in
every case the request object is returned. -/
theorem c3_bearer_injection (apiKey : Option String) (tokenRes : Except Unit String)
    (r : Headers) :
    (pyTruthy apiKey = true →
      bearerCall apiKey tokenRes r =
        setHeader r "Authorization" ("Bearer " ++ apiKey.getD "")) ∧
    (pyTruthy apiKey = false → ∀ t, tokenRes = .ok t →
      bearerCall apiKey tokenRes r = setHeader r "Authorization" ("Bearer " ++ t)) ∧
    (pyTruthy apiKey = false → tokenRes = .error () →
      bearerCall apiKey tokenRes r = r) := by
  refine ⟨fun h => ?_, fun h t ht => ?_, fun h ht => ?_⟩
  · simp [bearerCall, h]
  · simp [bearerCall, h, ht]
  · simp [bearerCall, h, ht]

theorem c3_witness :
    bearerCall (some "key") (.error ()) (fun _ => none) =
      setHeader (fun _ => none) "Authorization" ("Bearer " ++ (some "key").getD "") :=
  (c3_bearer_injection (some "key") (.error ()) (fun _ => none)).1 (by decide)

/-- C6 counterexample: a 401 response whose request carried an `Authorization`
header but whose body has no readable JSON error code is neither returned nor
turned into `LoginRequiredError`: the JSON lookup's exception escapes. -/
theorem c6_counterexample :
    outcomeOf ⟨401, "Unauthorized", some "Bearer k", none⟩ = .jsonFailure ∧
    outcomeOf ⟨401, "Unauthorized", some "Bearer k", none⟩ ≠
      .response ⟨401, "Unauthorized", some "Bearer k", none⟩ :=
  ⟨rfl, by decide⟩

/-- C6 amended: the requested URL is resolved against the base URI before
sending; `LoginRequiredError` is raised exactly when the status is 401 or 403
and either the sent request carried no `Authorization` header or the body's
error code reads `auth_required`; a 401/403 response with an `Authorization`
header whose JSON error-code lookup fails lets that exception escape; every
other response is returned to the caller. -/
theorem c6_request_behaviour (join : String → String → String) (send : String → RespModel)
    (baseUri url : String) (r : RespModel) :
    base_client_request join send baseUri url =
      (join baseUri url, outcomeOf (send (join baseUri url))) ∧
    ((∃ m, outcomeOf r = .loginRequired m) ↔
      ((r.status = 401 ∨ r.status = 403) ∧
        (r.reqAuthHeader = none ∨ r.jsonErrorCode = some "auth_required"))) ∧
    ((r.status = 401 ∨ r.status = 403) → r.reqAuthHeader ≠ none →
      r.jsonErrorCode = none → outcomeOf r = .jsonFailure) ∧
    ((¬(r.status = 401 ∨ r.status = 403)) ∨
        (r.reqAuthHeader ≠ none ∧ ∃ c, r.jsonErrorCode = some c ∧ c ≠ "auth_required") →
      outcomeOf r = .response r) := by
  refine ⟨rfl, ?_, ?_, ?_⟩
  · by_cases hs : r.status = 401 ∨ r.status = 403
    · by_cases ha : r.reqAuthHeader = none
      · simp [outcomeOf, hs, ha]
      · cases hj : r.jsonErrorCode with
        | none => simp [outcomeOf, hs, ha, hj]
        | some c =>
          by_cases hc : c = "auth_required"
          · subst hc; simp [outcomeOf, hs, ha, hj]
          · simp [outcomeOf, hs, ha, hj, hc]
    · simp [outcomeOf, hs]
  · intro hs ha hj
    simp [outcomeOf, hs, ha, hj]
  · intro hcase
    rcases hcase with hs | ⟨ha, c, hj, hc⟩
    · simp [outcomeOf, hs]
    · by_cases hs : r.status = 401 ∨ r.status = 403
      · simp [outcomeOf, hs, ha, hj, hc]
      · simp [outcomeOf, hs]

theorem c6_witness :
    outcomeOf ⟨200, "OK", none, none⟩ = .response ⟨200, "OK", none, none⟩ ∧
    outcomeOf ⟨403, "Forbidden", some "Bearer k", none⟩ = .jsonFailure :=
  ⟨((c6_request_behaviour (fun a _ => a) (fun _ => ⟨200, "OK", none, none⟩) "b" "u"
      ⟨200, "OK", none, none⟩).2.2.2 (by decide)),
   ((c6_request_behaviour (fun a _ => a) (fun _ => ⟨200, "OK", none, none⟩) "b" "u"
      ⟨403, "Forbidden", some "Bearer k", none⟩).2.2.1 (by decide) (by decide) rfl)⟩

end client

end SWMSU

namespace SWMSU

namespace version_utils

theorem charListLt_asymm : ∀ (xs ys : List Char),
    charListLt xs ys = true → charListLt ys xs = true → False := by
  intro xs
  induction xs with
  | nil =>
    intro ys h1 h2
    cases ys with
    | nil => simp [charListLt] at h1
    | cons y ys => simp [charListLt] at h2
  | cons x xs ih =>
    intro ys h1 h2
    cases ys with
    | nil => simp [charListLt] at h1
    | cons y ys =>
      simp only [charListLt, Bool.or_eq_true, Bool.and_eq_true, decide_eq_true_eq] at h1 h2
      rcases h1 with h1 | ⟨hxy, h1⟩
      · rcases h2 with h2 | ⟨hyx, h2⟩
        · exact absurd h2 (not_lt.mpr (le_of_lt h1))
        · subst hyx; exact absurd h1 (lt_irrefl _)
      · subst hxy
        rcases h2 with h2 | ⟨_, h2⟩
        · exact absurd h2 (lt_irrefl _)
        · exact ih ys h1 h2

theorem charListLt_trichotomy : ∀ (xs ys : List Char),
    charListLt xs ys = true ∨ xs = ys ∨ charListLt ys xs = true := by
  intro xs
  induction xs with
  | nil =>
    intro ys
    cases ys with
    | nil => exact Or.inr (Or.inl rfl)
    | cons y ys => exact Or.inl (by simp [charListLt])
  | cons x xs ih =>
    intro ys
    cases ys with
    | nil => exact Or.inr (Or.inr (by simp [charListLt]))
    | cons y ys =>
      rcases lt_trichotomy x y with h | h | h
      · exact Or.inl (by simp [charListLt, h])
      · subst h
        rcases ih ys with h2 | h2 | h2
        · exact Or.inl (by simp [charListLt, h2])
        · exact Or.inr (Or.inl (by rw [h2]))
        · exact Or.inr (Or.inr (by simp [charListLt, h2]))
      · exact Or.inr (Or.inr (by simp [charListLt, h]))

theorem partLt_asymm {x y : Part} (h1 : partLt x y = true) (h2 : partLt y x = true) :
    False := by
  cases x with
  | inl s =>
    cases y with
    | inl t =>
      simp only [partLt] at h1 h2
      exact charListLt_asymm s t h1 h2
    | inr n => simp [partLt] at h2
  | inr m =>
    cases y with
    | inl t => simp [partLt] at h1
    | inr n =>
      simp only [partLt, decide_eq_true_eq] at h1 h2
      omega

theorem partLt_trichotomy (x y : Part) :
    partLt x y = true ∨ x = y ∨ partLt y x = true := by
  cases x with
  | inl s =>
    cases y with
    | inl t =>
      rcases charListLt_trichotomy s t with h | h | h
      · exact Or.inl (by simp [partLt, h])
      · exact Or.inr (Or.inl (by rw [h]))
      · exact Or.inr (Or.inr (by simp [partLt, h]))
    | inr n => exact Or.inl (by simp [partLt])
  | inr m =>
    cases y with
    | inl t => exact Or.inr (Or.inr (by simp [partLt]))
    | inr n =>
      rcases lt_trichotomy m n with h | h | h
      · exact Or.inl (by simp [partLt, h])
      · exact Or.inr (Or.inl (by rw [h]))
      · exact Or.inr (Or.inr (by simp [partLt, h]))

theorem partsLt_asymm : ∀ (xs ys : List Part),
    partsLt xs ys = true → partsLt ys xs = true → False := by
  intro xs
  induction xs with
  | nil =>
    intro ys h1 h2
    cases ys with
    | nil => simp [partsLt] at h1
    | cons y ys => simp [partsLt] at h2
  | cons x xs ih =>
    intro ys h1 h2
    cases ys with
    | nil => simp [partsLt] at h1
    | cons y ys =>
      simp only [partsLt, Bool.or_eq_true, Bool.and_eq_true, decide_eq_true_eq] at h1 h2
      rcases h1 with h1 | ⟨hxy, h1⟩
      · rcases h2 with h2 | ⟨hyx, h2⟩
        · exact partLt_asymm h1 h2
        · subst hyx; exact partLt_asymm h1 h1
      · subst hxy
        rcases h2 with h2 | ⟨_, h2⟩
        · exact partLt_asymm h2 h2
        · exact ih ys h1 h2

theorem partsLt_trichotomy : ∀ (xs ys : List Part),
    partsLt xs ys = true ∨ xs = ys ∨ partsLt ys xs = true := by
  intro xs
  induction xs with
  | nil =>
    intro ys
    cases ys with
    | nil => exact Or.inr (Or.inl rfl)
    | cons y ys => exact Or.inl (by simp [partsLt])
  | cons x xs ih =>
    intro ys
    cases ys with
    | nil => exact Or.inr (Or.inr (by simp [partsLt]))
    | cons y ys =>
      rcases partLt_trichotomy x y with h | h | h
      · exact Or.inl (by simp [partsLt, h])
      · subst h
        rcases ih ys with h2 | h2 | h2
        · exact Or.inl (by simp [partsLt, h2])
        · exact Or.inr (Or.inl (by rw [h2]))
        · exact Or.inr (Or.inr (by simp [partsLt, h2]))
      · exact Or.inr (Or.inr (by simp [partsLt, h]))

theorem partsLt_ne_antisymm {xs ys : List Part} (h : xs ≠ ys) :
    partsLt xs ys = !partsLt ys xs := by
  rcases partsLt_trichotomy xs ys with h1 | h1 | h1
  · cases h2 : partsLt ys xs with
    | false => rw [h1]; rfl
    | true => exact (partsLt_asymm _ _ h1 h2).elim
  · exact absurd h1 h
  · cases h2 : partsLt xs ys with
    | false => rw [h1]; rfl
    | true => exact (partsLt_asymm _ _ h2 h1).elim

theorem veq_symm {PV : Type} [DecidableEq PV] (parse : String → Option PV)
    (a b : PyVersion) : veq parse a b = veq parse b a := by
  unfold veq
  rw [show (decide (a.raw = b.raw)) = decide (b.raw = a.raw) from
      decide_eq_decide.mpr eq_comm,
    show (decide (vversion parse a = vversion parse b)) =
        decide (vversion parse b = vversion parse a) from decide_eq_decide.mpr eq_comm]

theorem vlt_excl {PV : Type} [LinearOrder PV] (parse : String → Option PV)
    (a b : PyVersion) (hne : veq parse a b = false)
    (hps : partsOf a.raw = partsOf b.raw →
      ((parse a.raw).isSome ↔ (parse b.raw).isSome)) :
    vlt parse a b = !vlt parse b a := by
  have hver : ¬ (parse a.raw = parse b.raw) := by
    intro h; simp [veq, vversion, h] at hne
  unfold vlt vversion
  cases hpa : parse a.raw with
  | some x =>
    cases hpb : parse b.raw with
    | some y =>
      have hxy : x ≠ y := by
        intro h; exact hver (by rw [hpa, hpb, h])
      rcases lt_trichotomy x y with h | h | h
      · simp [h, not_lt.mpr (le_of_lt h)]
      · exact absurd h hxy
      · simp [h, not_lt.mpr (le_of_lt h)]
    | none =>
      have hne2 : partsOf a.raw ≠ partsOf b.raw := by
        intro h
        have h2 := (hps h).mp (by rw [hpa]; rfl)
        rw [hpb] at h2
        simp at h2
      exact partsLt_ne_antisymm hne2
  | none =>
    cases hpb : parse b.raw with
    | some y =>
      have hne2 : partsOf a.raw ≠ partsOf b.raw := by
        intro h
        have h2 := (hps h).mpr (by rw [hpb]; rfl)
        rw [hpa] at h2
        simp at h2
      exact partsLt_ne_antisymm hne2
    | none => exact absurd (hpa.trans hpb.symm) hver

/-- C7: `compare` always returns one of -1, 0, 1; it returns 0 when the two
versions are equal (in the comparator's `__eq__` sense) and -1 when the left
version is less than the right (and they are not equal); `compare a a = 0`;
and `compare a b = -compare b a`.  The third-party `packaging` parser is
abstracted as `parse`; the hypothesis records the property of the `packaging`
grammar that parseability only depends on the `parts` decomposition (every
numeric field of PEP 440 matches `[0-9]+`, so strings with equal `parts`
differ only in leading zeros of numeric runs and parse alike). -/
theorem c7_compare_consistency {PV : Type} [LinearOrder PV]
    (parse : String → Option PV) (a b : String)
    (hparse : partsOf (pyStrip a) = partsOf (pyStrip b) →
      ((parse (pyStrip a)).isSome ↔ (parse (pyStrip b)).isSome)) :
    (compare parse a b = -1 ∨ compare parse a b = 0 ∨ compare parse a b = 1) ∧
    (veq parse (mkVersion a) (mkVersion b) = true → compare parse a b = 0) ∧
    (veq parse (mkVersion a) (mkVersion b) = false →
      vlt parse (mkVersion a) (mkVersion b) = true → compare parse a b = -1) ∧
    compare parse a a = 0 ∧
    compare parse a b = -compare parse b a := by
  have hself : compare parse a a = 0 := by simp [compare, veq]
  refine ⟨?_, ?_, ?_, hself, ?_⟩
  · by_cases h1 : veq parse (mkVersion a) (mkVersion b) = true
    · simp [compare, h1]
    · by_cases h2 : vlt parse (mkVersion a) (mkVersion b) = true
      · simp [compare, h1, h2]
      · simp [compare, h1, h2]
  · intro h1; simp [compare, h1]
  · intro h1 h2; simp [compare, h1, h2]
  · cases hv : veq parse (mkVersion a) (mkVersion b) with
    | true =>
      have hv2 : veq parse (mkVersion b) (mkVersion a) = true := by
        rw [veq_symm]; exact hv
      simp [compare, hv, hv2]
    | false =>
      have hv2 : veq parse (mkVersion b) (mkVersion a) = false := by
        rw [veq_symm]; exact hv
      have hx := vlt_excl parse (mkVersion a) (mkVersion b) hv hparse
      cases hl : vlt parse (mkVersion a) (mkVersion b) with
      | true =>
        rw [hl] at hx
        cases hba : vlt parse (mkVersion b) (mkVersion a) with
        | false => simp [compare, hv, hv2, hl, hba]
        | true => rw [hba] at hx; simp at hx
      | false =>
        rw [hl] at hx
        cases hba : vlt parse (mkVersion b) (mkVersion a) with
        | true => simp [compare, hv, hv2, hl, hba]
        | false => rw [hba] at hx; simp at hx

theorem c7_witness :
    compare digitParse "abc" "abd" = -compare digitParse "abd" "abc" :=
  (c7_compare_consistency digitParse "abc" "abd" (by decide)).2.2.2.2

/-- C9: when neither raw string parses as a packaging version, `Version.__eq__`
returns true and `compare` returns 0 even for different raw strings, while
`Version.__lt__` still orders the two instances by their `parts` tuples. -/
theorem c9_unparseable_versions_equal {PV : Type} [LinearOrder PV]
    (parse : String → Option PV) (a b : String)
    (ha : parse (pyStrip a) = none) (hb : parse (pyStrip b) = none) :
    veq parse (mkVersion a) (mkVersion b) = true ∧
    compare parse a b = 0 ∧
    vlt parse (mkVersion a) (mkVersion b) =
      partsLt (partsOf (pyStrip a)) (partsOf (pyStrip b)) := by
  have hv : veq parse (mkVersion a) (mkVersion b) = true := by
    simp [veq, vversion, mkVersion, ha, hb]
  refine ⟨hv, by simp [compare, hv], ?_⟩
  simp [vlt, vversion, mkVersion, ha, hb]

theorem c9_witness :
    compare digitParse "foo" "bar" = 0 ∧
    vlt digitParse (mkVersion "bar") (mkVersion "foo") = true :=
  ⟨(c9_unparseable_versions_equal digitParse "foo" "bar" (by decide) (by decide)).2.1,
   rfl⟩

end version_utils

end SWMSU

namespace SWMSU

theorem splitOnChar_ne_nil (sep : Char) (cs : List Char) : splitOnChar sep cs ≠ [] := by
  cases cs with
  | nil => simp [splitOnChar]
  | cons c cs => by_cases h : c = sep <;> simp [splitOnChar, h]

theorem splitOnChar_cons_headI_tail (sep : Char) (cs : List Char) :
    splitOnChar sep cs = (splitOnChar sep cs).headI :: (splitOnChar sep cs).tail := by
  cases h : splitOnChar sep cs with
  | nil => exact absurd h (splitOnChar_ne_nil sep cs)
  | cons a t => rfl

theorem splitOnChar_sep_cons (sep : Char) (b : List Char) :
    splitOnChar sep (sep :: b) = [] :: splitOnChar sep b := by
  simp [splitOnChar]

theorem splitOnChar_append_no_sep (sep : Char) {a : List Char} (b : List Char)
    (h : sep ∉ a) :
    splitOnChar sep (a ++ b) =
      (a ++ (splitOnChar sep b).headI) :: (splitOnChar sep b).tail := by
  induction a with
  | nil => simpa using splitOnChar_cons_headI_tail sep b
  | cons x a ih =>
    have hx : ¬ x = sep := fun hh => h (hh ▸ List.mem_cons_self x a)
    have h2 : sep ∉ a := fun hh => h (List.mem_cons_of_mem x hh)
    rw [List.cons_append]
    show (if x = sep then [] :: splitOnChar sep (a ++ b)
      else (x :: (splitOnChar sep (a ++ b)).headI) :: (splitOnChar sep (a ++ b)).tail) = _
    rw [if_neg hx, ih h2]
    simp

theorem splitOnChar_no_sep (sep : Char) {a : List Char} (h : sep ∉ a) :
    splitOnChar sep a = [a] := by
  have h2 := splitOnChar_append_no_sep sep [] h
  simpa [splitOnChar] using h2

theorem splitOnChar_mem_no_sep (sep : Char) : ∀ (cs : List Char),
    ∀ s ∈ splitOnChar sep cs, sep ∉ s := by
  intro cs
  induction cs with
  | nil =>
    intro s hs
    simp only [splitOnChar, List.mem_singleton] at hs
    subst hs; simp
  | cons c cs ih =>
    intro s hs
    by_cases h : c = sep
    · subst h
      rw [splitOnChar_sep_cons] at hs
      rcases List.mem_cons.mp hs with h1 | h1
      · subst h1; simp
      · exact ih s h1
    · rw [show splitOnChar sep (c :: cs) = (c :: (splitOnChar sep cs).headI) ::
          (splitOnChar sep cs).tail by rw [splitOnChar]; rw [if_neg h]] at hs
      rcases List.mem_cons.mp hs with h1 | h1
      · subst h1
        intro hmem
        rcases List.mem_cons.mp hmem with h2 | h2
        · exact h h2.symm
        · have hh : (splitOnChar sep cs).headI ∈ splitOnChar sep cs := by
            cases hsc : splitOnChar sep cs with
            | nil => exact absurd hsc (splitOnChar_ne_nil sep cs)
            | cons a t => simp
          exact ih _ hh h2
      · exact ih s (List.mem_of_mem_tail h1)

theorem joinChar_splitOnChar (sep : Char) : ∀ (cs : List Char),
    joinChar sep (splitOnChar sep cs) = cs := by
  intro cs
  induction cs with
  | nil => rfl
  | cons c cs ih =>
    by_cases h : c = sep
    · rw [h, splitOnChar_sep_cons]
      cases hs : splitOnChar sep cs with
      | nil => exact absurd hs (splitOnChar_ne_nil sep cs)
      | cons a t =>
        rw [hs] at ih
        show [] ++ sep :: joinChar sep (a :: t) = sep :: cs
        rw [ih]
        rfl
    · rw [show splitOnChar sep (c :: cs) = (c :: (splitOnChar sep cs).headI) ::
        (splitOnChar sep cs).tail by rw [splitOnChar]; rw [if_neg h]]
      cases hs : splitOnChar sep cs with
      | nil => exact absurd hs (splitOnChar_ne_nil sep cs)
      | cons a t =>
        rw [hs] at ih
        simp only [List.headI_cons, List.tail_cons]
        cases t with
        | nil =>
          show c :: a = c :: cs
          simp only [joinChar] at ih
          rw [ih]
        | cons b t2 =>
          show (c :: a) ++ sep :: joinChar sep (b :: t2) = c :: cs
          rw [← ih]
          rfl

theorem splitOnChar_joinChar (sep : Char) : ∀ (segs : List (List Char)), segs ≠ [] →
    (∀ s ∈ segs, sep ∉ s) → splitOnChar sep (joinChar sep segs) = segs := by
  intro segs
  induction segs with
  | nil => intro h; exact absurd rfl h
  | cons s segs ih =>
    intro _ hns
    cases segs with
    | nil => exact splitOnChar_no_sep sep (hns s (List.mem_cons_self s []))
    | cons s2 segs2 =>
      have hs : sep ∉ s := hns s (List.mem_cons_self _ _)
      show splitOnChar sep (s ++ sep :: joinChar sep (s2 :: segs2)) = s :: s2 :: segs2
      rw [splitOnChar_append_no_sep sep _ hs, splitOnChar_sep_cons,
        ih (by simp) (fun x hx => hns x (List.mem_cons_of_mem s hx))]
      simp

theorem splitOnChar_join_append_no_nil (sep : Char) :
    ∀ (segs : List (List Char)) (b : List Char), segs ≠ [] →
    (∀ s ∈ segs, sep ∉ s) → (∀ s ∈ segs, s ≠ []) →
    [] ∉ (splitOnChar sep b).tail →
    [] ∉ splitOnChar sep (joinChar sep segs ++ b) := by
  intro segs
  induction segs with
  | nil => intro b h; exact absurd rfl h
  | cons s segs ih =>
    intro b _ hns hne hb
    cases segs with
    | nil =>
      show [] ∉ splitOnChar sep (s ++ b)
      rw [splitOnChar_append_no_sep sep b (hns s (by simp))]
      intro hmem
      rcases List.mem_cons.mp hmem with h1 | h1
      · exact hne s (by simp) (List.append_eq_nil.mp h1.symm).1
      · exact hb h1
    | cons s2 segs2 =>
      show [] ∉ splitOnChar sep ((s ++ sep :: joinChar sep (s2 :: segs2)) ++ b)
      rw [List.append_assoc, List.cons_append]
      rw [splitOnChar_append_no_sep sep _ (hns s (by simp)), splitOnChar_sep_cons]
      intro hmem
      simp only [List.headI_cons, List.tail_cons, List.append_nil] at hmem
      rcases List.mem_cons.mp hmem with h1 | h1
      · exact hne s (by simp) h1.symm
      · exact ih b (by simp) (fun x hx => hns x (List.mem_cons_of_mem s hx))
          (fun x hx => hne x (List.mem_cons_of_mem s hx)) hb h1

theorem mem_of_mem_dropWhile {p : Char → Bool} : ∀ {l : List Char} {a : Char},
    a ∈ l.dropWhile p → a ∈ l := by
  intro l
  induction l with
  | nil => intro a h; simp at h
  | cons x xs ih =>
    intro a h
    rw [List.dropWhile_cons] at h
    by_cases hp : p x = true
    · rw [if_pos hp] at h
      exact List.mem_cons_of_mem x (ih h)
    · rw [if_neg hp] at h
      exact h

theorem dropWhile_head_false {p : Char → Bool} : ∀ {l : List Char} {c : Char}
    {r : List Char}, l.dropWhile p = c :: r → p c = false := by
  intro l
  induction l with
  | nil => intro c r h; simp at h
  | cons x xs ih =>
    intro c r h
    rw [List.dropWhile_cons] at h
    by_cases hp : p x = true
    · rw [if_pos hp] at h
      exact ih h
    · rw [if_neg hp] at h
      injection h with h1 h2
      subst h1
      cases hpx : p x with
      | true => exact absurd hpx hp
      | false => rfl

end SWMSU

namespace SWMSU

namespace client

theorem numIdentOK_ne_nil {cs : List Char} (h : numIdentOK cs = true) : cs ≠ [] := by
  intro hh; subst hh; simp [numIdentOK] at h

theorem numIdentOK_all_digit {cs : List Char} (h : numIdentOK cs = true) :
    ∀ c ∈ cs, c.isDigit = true := by
  simp only [numIdentOK, Bool.and_eq_true] at h
  exact fun c hc => List.all_eq_true.mp h.1.2 c hc

theorem digits_no_dot {cs : List Char} (h : ∀ c ∈ cs, c.isDigit = true) :
    ('.' : Char) ∉ cs := by
  intro hmem
  exact absurd (h '.' hmem) (by decide)

theorem preIdentOK_ne_nil {cs : List Char} (h : preIdentOK cs = true) : cs ≠ [] := by
  intro hh; subst hh; simp [preIdentOK] at h

theorem buildIdentOK_ne_nil {cs : List Char} (h : buildIdentOK cs = true) : cs ≠ [] := by
  intro hh; subst hh; simp [buildIdentOK] at h

theorem parseCore_some {core : List Char} {t : Nat × Nat × Nat}
    (h : parseCore core = some t) :
    ∃ ma mi pa, splitOnChar '.' core = [ma, mi, pa] ∧
      numIdentOK ma = true ∧ numIdentOK mi = true ∧ numIdentOK pa = true := by
  unfold parseCore at h
  split at h
  next ma mi pa heq =>
    refine ⟨ma, mi, pa, heq, ?_⟩
    by_cases hn : (numIdentOK ma && numIdentOK mi && numIdentOK pa) = true
    · simp only [Bool.and_eq_true] at hn
      exact ⟨hn.1.1, hn.1.2, hn.2⟩
    · rw [if_neg hn] at h
      exact Option.noConfusion h
  next =>
    exact Option.noConfusion h

theorem parsePre_some {d : List Char} {segs : List (List Char)}
    (h : parsePre d = some segs) :
    d = [] ∨ ∃ c ps, d = c :: ps ∧ ∀ s ∈ splitOnChar '.' ps, preIdentOK s = true := by
  cases d with
  | nil => exact Or.inl rfl
  | cons c ps =>
    right
    have h2 : (if (splitOnChar '.' ps).all preIdentOK = true then
        some (splitOnChar '.' ps) else none) = some segs := h
    by_cases hall : (splitOnChar '.' ps).all preIdentOK = true
    · exact ⟨c, ps, rfl, fun s hs => List.all_eq_true.mp hall s hs⟩
    · rw [if_neg hall] at h2
      exact Option.noConfusion h2

theorem parseBuild_some {d : List Char} {segs : List (List Char)}
    (h : parseBuild d = some segs) :
    d = [] ∨ ∃ c bs, d = c :: bs ∧ ∀ s ∈ splitOnChar '.' bs, buildIdentOK s = true := by
  cases d with
  | nil => exact Or.inl rfl
  | cons c bs =>
    right
    have h2 : (if (splitOnChar '.' bs).all buildIdentOK = true then
        some (splitOnChar '.' bs) else none) = some segs := h
    by_cases hall : (splitOnChar '.' bs).all buildIdentOK = true
    · exact ⟨c, bs, rfl, fun s hs => List.all_eq_true.mp hall s hs⟩
    · rw [if_neg hall] at h2
      exact Option.noConfusion h2

theorem head_tail_no_nil {c : Char} {bs : List Char} (hc : ('.' : Char) ∉ [c])
    (hb : ∀ s ∈ splitOnChar '.' bs, s ≠ []) :
    [] ∉ (splitOnChar '.' (c :: bs)).tail := by
  intro hmem
  have heq := splitOnChar_append_no_sep '.' bs hc
  rw [List.singleton_append] at heq
  rw [heq, List.tail_cons] at hmem
  exact hb [] (List.mem_of_mem_tail hmem) rfl

theorem semverParseL_no_empty_seg {cs : List Char} {v : Semver}
    (h : semverParseL cs = some v) : [] ∉ splitOnChar '.' cs := by
  unfold semverParseL at h
  rcases hc : parseCore ((cs.takeWhile (· ≠ '+')).takeWhile (· ≠ '-')) with _ | t
  · rw [hc] at h; exact Option.noConfusion h
  rcases t with ⟨ma0, mi0, pa0⟩
  rcases hpre : parsePre ((cs.takeWhile (· ≠ '+')).dropWhile (· ≠ '-')) with _ | pre
  · rw [hc, hpre] at h; exact Option.noConfusion h
  rcases hbld : parseBuild (cs.dropWhile (· ≠ '+')) with _ | bld
  · rw [hc, hpre, hbld] at h; exact Option.noConfusion h
  clear h
  obtain ⟨ma, mi, pa, hsplit, hma, hmi, hpa⟩ := parseCore_some hc
  have hmaNe : ma ≠ [] := numIdentOK_ne_nil hma
  have hmiNe : mi ≠ [] := numIdentOK_ne_nil hmi
  have hpaNe : pa ≠ [] := numIdentOK_ne_nil hpa
  have hmaDot : ('.' : Char) ∉ ma := digits_no_dot (numIdentOK_all_digit hma)
  have hmiDot : ('.' : Char) ∉ mi := digits_no_dot (numIdentOK_all_digit hmi)
  have hpaDot : ('.' : Char) ∉ pa := digits_no_dot (numIdentOK_all_digit hpa)
  -- the `-prerelease` tail, when present, starts with `-` and has nonempty segments
  have hdashCase : (cs.takeWhile (· ≠ '+')).dropWhile (· ≠ '-') = [] ∨
      ∃ ps, (cs.takeWhile (· ≠ '+')).dropWhile (· ≠ '-') = '-' :: ps ∧
        ∀ s ∈ splitOnChar '.' ps, s ≠ [] := by
    rcases parsePre_some hpre with hnil | ⟨c, ps, heq, hall⟩
    · exact Or.inl hnil
    · right
      have hc0 := dropWhile_head_false heq
      have hcd : c = '-' := not_not.mp (of_decide_eq_false hc0)
      subst hcd
      exact ⟨ps, heq, fun s hs => preIdentOK_ne_nil (hall s hs)⟩
  -- the `+build` tail, when present, starts with `+` and has nonempty segments
  have hplusCase : cs.dropWhile (· ≠ '+') = [] ∨
      ∃ bs, cs.dropWhile (· ≠ '+') = '+' :: bs ∧
        ∀ s ∈ splitOnChar '.' bs, s ≠ [] := by
    rcases parseBuild_some hbld with hnil | ⟨c, bs, heq, hall⟩
    · exact Or.inl hnil
    · right
      have hc0 := dropWhile_head_false heq
      have hcd : c = '+' := not_not.mp (of_decide_eq_false hc0)
      subst hcd
      exact ⟨bs, heq, fun s hs => buildIdentOK_ne_nil (hall s hs)⟩
  -- decompose the input around the release digits
  have h1 : (cs.takeWhile (· ≠ '+')) ++ (cs.dropWhile (· ≠ '+')) = cs :=
    List.takeWhile_append_dropWhile _ _
  have h2 : ((cs.takeWhile (· ≠ '+')).takeWhile (· ≠ '-')) ++
      ((cs.takeWhile (· ≠ '+')).dropWhile (· ≠ '-')) = cs.takeWhile (· ≠ '+') :=
    List.takeWhile_append_dropWhile _ _
  have hjoin := joinChar_splitOnChar '.' ((cs.takeWhile (· ≠ '+')).takeWhile (· ≠ '-'))
  rw [hsplit] at hjoin
  have hcoreeq : (cs.takeWhile (· ≠ '+')).takeWhile (· ≠ '-') =
      ma ++ '.' :: (mi ++ '.' :: pa) := by
    rw [← hjoin]; rfl
  have hcs2 : cs = ma ++ '.' :: (mi ++ '.' :: (pa ++
      (((cs.takeWhile (· ≠ '+')).dropWhile (· ≠ '-')) ++ (cs.dropWhile (· ≠ '+'))))) := by
    conv_lhs => rw [← h1, ← h2, hcoreeq]
    simp [List.append_assoc]
  -- no segment of the final split is empty
  have htail : [] ∉ (splitOnChar '.'
      (((cs.takeWhile (· ≠ '+')).dropWhile (· ≠ '-')) ++ (cs.dropWhile (· ≠ '+')))).tail := by
    rcases hdashCase with hd | ⟨ps, hdeq, hpsne⟩
    · rw [hd, List.nil_append]
      rcases hplusCase with hp | ⟨bs, hpeq, hbsne⟩
      · rw [hp]; simp [splitOnChar]
      · rw [hpeq]
        exact head_tail_no_nil (by decide) hbsne
    · rw [hdeq]
      rcases hplusCase with hp | ⟨bs, hpeq, hbsne⟩
      · rw [hp, List.append_nil]
        exact head_tail_no_nil (by decide) hpsne
      · rw [hpeq, List.cons_append]
        apply head_tail_no_nil (by decide)
        intro s hs hsnil
        subst hsnil
        have hX : [] ∉ splitOnChar '.' (ps ++ '+' :: bs) := by
          have hj := joinChar_splitOnChar '.' ps
          rw [← hj]
          apply splitOnChar_join_append_no_nil
          · exact splitOnChar_ne_nil '.' ps
          · exact fun s2 hs2 => splitOnChar_mem_no_sep '.' ps s2 hs2
          · exact hpsne
          · exact head_tail_no_nil (by decide) hbsne
        exact hX hs
  rw [hcs2]
  rw [splitOnChar_append_no_sep '.' _ hmaDot, splitOnChar_sep_cons]
  simp only [List.headI_cons, List.tail_cons, List.append_nil]
  rw [splitOnChar_append_no_sep '.' _ hmiDot, splitOnChar_sep_cons]
  simp only [List.headI_cons, List.tail_cons, List.append_nil]
  rw [splitOnChar_append_no_sep '.' _ hpaDot]
  intro hmem
  rcases List.mem_cons.mp hmem with hx | hmem2
  · exact hmaNe hx.symm
  rcases List.mem_cons.mp hmem2 with hx | hmem3
  · exact hmiNe hx.symm
  rcases List.mem_cons.mp hmem3 with hx | hmem4
  · exact hpaNe (List.append_eq_nil.mp hx.symm).1
  · exact htail hmem4

end client

end SWMSU

namespace SWMSU

namespace client

/-- C8: `_parse_semver_string` strips leading `0`s from every dot component, so
any version string with a component consisting only of zeros (such as `1.0.0`,
normalized to `1..`) fails to parse and yields `None`; consequently
`_validate_api_version` issues no warning whenever the client or the server
version string has such a component. -/
theorem c8_zero_components_defeat_parsing (version clientV serverV : String)
    (hv : hasAllZeroComponent version)
    (hcs : hasAllZeroComponent clientV ∨ hasAllZeroComponent serverV) :
    parse_semver_string version = none ∧
    validate_api_version (some clientV) (some serverV) = false := by
  have main : ∀ s : String, hasAllZeroComponent s → parse_semver_string s = none := by
    intro s hz
    rcases hz with ⟨z, hzmem, hzne, hzzero⟩
    have hnil_mem : [] ∈ (splitOnChar '.' s.data).map (List.dropWhile (· = '0')) := by
      refine List.mem_map.mpr ⟨z, hzmem, ?_⟩
      refine List.dropWhile_eq_nil_iff.mpr ?_
      intro x hx
      have hx0 : x = '0' := by simpa using List.all_eq_true.mp hzzero x hx
      simp [hx0]
    have hne_nil : (splitOnChar '.' s.data).map (List.dropWhile (· = '0')) ≠ [] := by
      intro hh
      exact splitOnChar_ne_nil '.' s.data (List.map_eq_nil_iff.mp hh)
    have hnosep : ∀ x ∈ (splitOnChar '.' s.data).map (List.dropWhile (· = '0')),
        ('.' : Char) ∉ x := by
      intro x hx
      rcases List.mem_map.mp hx with ⟨y, hy, rfl⟩
      intro hdot
      exact splitOnChar_mem_no_sep '.' s.data y hy (mem_of_mem_dropWhile hdot)
    unfold parse_semver_string
    cases hp : semverParseL
        (joinChar '.' ((splitOnChar '.' s.data).map (List.dropWhile (· = '0')))) with
    | none => rfl
    | some v =>
      have hnomem := semverParseL_no_empty_seg hp
      rw [splitOnChar_joinChar '.' _ hne_nil hnosep] at hnomem
      exact absurd hnil_mem hnomem
  refine ⟨main version hv, ?_⟩
  rcases hcs with h | h
  · have hc := main clientV h
    simp [validate_api_version, hc]
  · have hs := main serverV h
    rcases hpc : parse_semver_string clientV with _ | av
    · simp [validate_api_version, hpc]
    · simp [validate_api_version, hpc, hs]

theorem c8_witness :
    parse_semver_string "1.0.0" = none ∧
    validate_api_version (some "1.0.0") (some "2.0.0") = false :=
  c8_zero_components_defeat_parsing "1.0.0" "1.0.0" "2.0.0"
    (by unfold hasAllZeroComponent; decide)
    (Or.inl (by unfold hasAllZeroComponent; decide))

end client

end SWMSU
